import Mathlib

set_option maxHeartbeats 1000000

/-!
Verification of the mindmap sync worker's reconciliation core.

The embedding follows the source: `mergeMindmapData` and `mergeNodes` become
pure Lean functions, the `POST /api/sync` handler becomes a function from the
stored snapshot and the request body to a response plus the new store
contents.  JS numbers used as epoch-millisecond timestamps are embedded as
`Int` (the value `new Date(s).getTime()` yields for a well-formed ISO string);
the wall clock read by `new Date()` at merge time is passed in as an explicit
`now` argument.
-/

/-- A tree node as consumed by `mergeNodes`: a stable `id`, opaque scalar
payload fields (label text, display metadata) embedded as an association
list, and the ordered `children` array. -/
inductive Node where
| mk (id : String) (fields : List (String × String)) (children : List Node)

/-- The `id` property of a node. -/
def Node.id : Node → String
| .mk i _ _ => i

/-- The scalar payload fields of a node (everything `{ ...newerNode }`
copies other than `children`). -/
def Node.fields : Node → List (String × String)
| .mk _ f _ => f

/-- The `children` array of a node (`node.children || []`: a missing array
is embedded as `[]`). -/
def Node.children : Node → List Node
| .mk _ _ c => c

/-- A tombstone record stored in `deletedNodes`.  In the source a record is
an opaque string that is run through `JSON.parse` to recover an `id`;
`JSON.parse` is a platform builtin outside this repository, so a record is
embedded as its raw string together with the outcome of that parse:
`valid raw i` stands for a string whose parse yields an object with a usable
`id` field `i`, and `invalid raw` for a string whose parse throws or yields
no id usable against the string node ids. -/
inductive TombRecord where
| valid (raw : String) (id : String)
| invalid (raw : String)
deriving DecidableEq

/-- The body of the `try { deletedIds.add(JSON.parse(record).id) } catch`
loop for one record: the id the record contributes, if any. -/
def parseId : TombRecord → Option String
| .valid _ i => some i
| .invalid _ => none

/-- First-occurrence deduplication with an accumulator of already-seen
elements: the membership and order semantics of a JS `Set` filled by
successive `add` calls (insertion order, duplicates collapse). -/
def jsDedupAux [DecidableEq α] (seen : List α) : List α → List α
| [] => []
| x :: xs => if x ∈ seen then jsDedupAux seen xs else x :: jsDedupAux (x :: seen) xs

/-- `Array.from(new Set(l))`. -/
def jsDedup [DecidableEq α] (l : List α) : List α := jsDedupAux [] l

/-- The `viewOffset: { x, y }` pair. -/
structure ViewOffset where
  x : Int
  y : Int
deriving DecidableEq

/-- The `MindmapData` snapshot interface.  `tree` may be `null`
(`Option Node`); `deletedNodes` may be absent in older schema variants
(`Option`, read through `deletedNodes || []`); `timestamp` is embedded as
its epoch-millisecond value. -/
structure MindmapData where
  tree : Option Node
  currentCenterId : String
  viewOffset : ViewOffset
  deletedNodes : Option (List TombRecord)
  timestamp : Int

/-- `newerChildMap.has(id)` where the map was filled from `children` by
`newerChildMap.set(child.id, child)`. -/
def childMapHas (children : List Node) (i : String) : Bool :=
  children.any (fun c => c.id == i)

/-- `newerChildMap.get(id)`: successive `Map.set` calls overwrite, so the
last child with the given id wins. -/
def childMapGet (children : List Node) (i : String) : Option Node :=
  children.reverse.find? (fun c => c.id == i)

/-- `const index = mergedChildren.findIndex(c => c.id === oldChild.id);
if (index !== -1) mergedChildren[index] = mergedChild;` — replace the first
element with the given id, leave the list unchanged when there is none. -/
def replaceFirstById : List Node → String → Node → List Node
| [], _, _ => []
| c :: cs, i, m => if c.id == i then m :: cs else c :: replaceFirstById cs i m

/-- `sizeOf` of the `children` projection is below `sizeOf` of the node,
used for termination of the mutual merge recursion. -/
theorem sizeOf_children_lt (o : Node) : sizeOf o.children < sizeOf o := by
  cases o with
  | mk i f c => simp [Node.children]

mutual

/-- `mergeNodes` for two present (non-null) nodes: the tombstone checks on
the two ids, then `{ ...newerNode }` with the reconciled children.  The
trailing `filter(c => c !== null)` of the source is vacuous here: a `null`
entry can only be written by the guarded `if (mergedChild)` replacement,
which never writes one, and the embedding's child lists contain nodes
only. -/
def mergeNodesSome (deletedIds : List String) (n : Node) : Node → Option Node
| .mk oid _ofields ochildren =>
  if deletedIds.contains n.id then none
  else if deletedIds.contains oid then none
  else some (Node.mk n.id n.fields
    (mergeOldChildren deletedIds n.children ochildren n.children))
termination_by structural o => o

/-- The `olderChildren.forEach` loop, with the mutable `mergedChildren`
array threaded as `acc` (initially `[...newerChildren]`): skip tombstoned
older children, append older-only branches, recursively merge matched ones
and replace the first matching entry when the recursion returns a node. -/
def mergeOldChildren (deletedIds : List String) (newerChildren : List Node) :
    List Node → List Node → List Node
| [], acc => acc
| oldChild :: rest, acc =>
  mergeOldChildren deletedIds newerChildren rest
    (if deletedIds.contains oldChild.id then acc
     else if !(childMapHas newerChildren oldChild.id) then acc ++ [oldChild]
     else
       match childMapGet newerChildren oldChild.id with
       | none => replaceFirstById acc oldChild.id oldChild
       | some newerChild =>
         match mergeNodesSome deletedIds newerChild oldChild with
         | none => acc
         | some mergedChild => replaceFirstById acc oldChild.id mergedChild)
termination_by structural l _ => l

end

/-- `mergeNodes(newerNode, olderNode, deletedIds)`: the two null checks,
then the body for two present nodes. -/
def mergeNodes (newerNode olderNode : Option Node) (deletedIds : List String) :
    Option Node :=
  match newerNode, olderNode with
  | none, older => older
  | some n, none => some n
  | some n, some o => mergeNodesSome deletedIds n o

/-- `new Set([...cloudDeletedNodes, ...localDeletedNodes])`: the union of
the two tombstone record sets, duplicates collapsed, a missing
`deletedNodes` field read as empty. -/
def unionRecords (cloudData localData : MindmapData) : List TombRecord :=
  jsDedup (jsDedup (cloudData.deletedNodes.getD []) ++
           jsDedup (localData.deletedNodes.getD []))

/-- The `deletedIds` set: the ids contributed by parsing every record of the
union, unparsable records skipped. -/
def mergedDeletedIds (cloudData localData : MindmapData) : List String :=
  jsDedup ((unionRecords cloudData localData).filterMap parseId)

/-- `mergeMindmapData(cloudData, localData)`.  `now` is the value
`new Date()` reads when the output timestamp is produced. -/
def mergeMindmapData (now : Int) (cloudData localData : MindmapData) :
    MindmapData :=
  let allDeletedNodes := unionRecords cloudData localData
  let deletedIds := mergedDeletedIds cloudData localData
  let newerData :=
    if cloudData.timestamp < localData.timestamp then localData else cloudData
  let olderData :=
    if cloudData.timestamp < localData.timestamp then cloudData else localData
  { tree := mergeNodes newerData.tree olderData.tree deletedIds
    currentCenterId := newerData.currentCenterId
    viewOffset := newerData.viewOffset
    deletedNodes := some allDeletedNodes
    timestamp := now }

/-- The observable outcome of one `POST /api/sync` request: the JSON response
fields and the contents of the `mindmap_data` key after the request. -/
structure SyncResult where
  status : Nat
  success : Bool
  error : Option String
  data : Option MindmapData
  store : Option MindmapData

/-- The `POST` branch of `handleSync`: `stored` is the current value under
the `mindmap_data` key, `localData` is `body.localData`, `now` feeds the
merge clock.  The four branches mirror the source's
`!cloudData && localData` / `cloudData && !localData` / both / neither
cascade; only the first three write to the store. -/
def handleSyncPost (now : Int) (stored localData : Option MindmapData) :
    SyncResult :=
  match stored, localData with
  | none, some l =>
    { status := 200, success := true, error := none, data := some l,
      store := some l }
  | some c, none =>
    { status := 200, success := true, error := none, data := some c,
      store := some c }
  | some c, some l =>
    let m := mergeMindmapData now c l
    { status := 200, success := true, error := none, data := some m,
      store := some m }
  | none, none =>
    { status := 400, success := false, error := some "No data provided",
      data := none, store := none }

mutual

/-- Whether a node with the given id occurs anywhere in a subtree. -/
def hasId (k : String) : Node → Bool
| .mk i _ cs => i == k || listHasId k cs

/-- `hasId` over a list of subtrees. -/
def listHasId (k : String) : List Node → Bool
| [] => false
| c :: cs => hasId k c || listHasId k cs

end

/-- `hasId` through an optional tree (a `null` tree contains nothing). -/
def treeHasId (t : Option Node) (k : String) : Bool :=
  match t with
  | none => false
  | some n => hasId k n

/-- All ids in a list of strings are pairwise distinct. -/
def distinctIds : List String → Bool
| [] => true
| x :: xs => !(xs.contains x) && distinctIds xs

mutual

/-- Well-formedness of a tree per the data model: at every node the
children's ids are pairwise distinct (a consequence of the documented
invariant that all ids in a snapshot's tree are unique). -/
def wfNode : Node → Bool
| .mk _ _ cs => distinctIds (cs.map Node.id) && wfList cs

/-- `wfNode` over a list of subtrees. -/
def wfList : List Node → Bool
| [] => true
| c :: cs => wfNode c && wfList cs

end

/-- First element of a child list with the given id (`findIndex` semantics,
as an `Option`). -/
def firstById (l : List Node) (i : String) : Option Node :=
  l.find? (fun c => c.id == i)

/-! ### Helper lemmas about the embedded primitives -/

theorem contains_iff_mem {l : List String} {s : String} :
    l.contains s = true ↔ s ∈ l := by
  simp [List.contains]

theorem sizeOf_mem_children_lt {oc o : Node} (h : oc ∈ o.children) :
    sizeOf oc < sizeOf o :=
  lt_trans (List.sizeOf_lt_of_mem h) (sizeOf_children_lt o)

/-- Strong induction over a node through its (arbitrarily deep) children. -/
theorem node_strong_ind (P : Node → Prop)
    (step : ∀ o : Node, (∀ oc ∈ o.children, P oc) → P o) : ∀ o, P o := by
  have aux : ∀ (sz : Nat) (o : Node), sizeOf o ≤ sz → P o := by
    intro sz
    induction sz with
    | zero =>
      intro o ho
      cases o with
      | mk i f c => simp at ho
    | succ k ih =>
      intro o ho
      refine step o (fun oc hoc => ih oc ?_)
      have h1 := sizeOf_mem_children_lt hoc
      omega
  exact fun o => aux (sizeOf o) o le_rfl

theorem jsDedupAux_mem [DecidableEq α] {x : α} :
    ∀ (l seen : List α), x ∈ jsDedupAux seen l ↔ x ∈ l ∧ x ∉ seen := by
  intro l
  induction l with
  | nil => intro seen; simp [jsDedupAux]
  | cons y ys ih =>
    intro seen
    by_cases hy : y ∈ seen
    · rw [jsDedupAux, if_pos hy, ih seen]
      simp only [List.mem_cons]
      constructor
      · rintro ⟨hx, hns⟩
        exact ⟨Or.inr hx, hns⟩
      · rintro ⟨hx | hx, hns⟩
        · exact absurd (hx ▸ hy) hns
        · exact ⟨hx, hns⟩
    · rw [jsDedupAux, if_neg hy]
      simp only [List.mem_cons, ih (y :: seen)]
      constructor
      · rintro (hx | ⟨hx, hns⟩)
        · exact ⟨Or.inl hx, hx ▸ hy⟩
        · simp only [List.mem_cons, not_or] at hns
          exact ⟨Or.inr hx, hns.2⟩
      · rintro ⟨hx | hx, hns⟩
        · exact Or.inl hx
        · by_cases hxy : x = y
          · exact Or.inl hxy
          · exact Or.inr ⟨hx, by simp [hns, hxy]⟩

theorem jsDedup_mem [DecidableEq α] {x : α} {l : List α} :
    x ∈ jsDedup l ↔ x ∈ l := by
  simp [jsDedup, jsDedupAux_mem]

theorem listHasId_iff {k : String} :
    ∀ {cs : List Node}, listHasId k cs = true ↔ ∃ c ∈ cs, hasId k c = true := by
  intro cs
  induction cs with
  | nil => simp [listHasId]
  | cons c cs ih => simp [listHasId, ih]

theorem hasId_mk {k i : String} {f : List (String × String)} {cs : List Node} :
    hasId k (Node.mk i f cs) = (i == k || listHasId k cs) := rfl

theorem childMapHas_iff {cs : List Node} {i : String} :
    childMapHas cs i = true ↔ ∃ c ∈ cs, c.id = i := by
  simp [childMapHas]

theorem childMapGet_mem {cs : List Node} {i : String} {c : Node}
    (h : childMapGet cs i = some c) : c ∈ cs ∧ c.id = i := by
  have h1 := List.find?_some h
  have h2 := List.mem_of_find?_eq_some h
  simp at h1
  exact ⟨List.mem_reverse.mp h2, h1⟩

theorem replaceFirstById_mem {x m : Node} {i : String} :
    ∀ {l : List Node}, x ∈ replaceFirstById l i m → x ∈ l ∨ x = m := by
  intro l
  induction l with
  | nil => simp [replaceFirstById]
  | cons c cs ih =>
    intro hx
    rw [replaceFirstById] at hx
    split at hx
    · rcases List.mem_cons.mp hx with h | h
      · exact Or.inr h
      · exact Or.inl (List.mem_cons_of_mem _ h)
    · rcases List.mem_cons.mp hx with h | h
      · subst h; exact Or.inl (List.mem_cons_self _ _)
      · rcases ih h with h2 | h2
        · exact Or.inl (List.mem_cons_of_mem _ h2)
        · exact Or.inr h2

theorem distinctIds_cons {x : String} {xs : List String} :
    distinctIds (x :: xs) = true ↔ x ∉ xs ∧ distinctIds xs = true := by
  simp [distinctIds, contains_iff_mem]

/-- Under sibling-distinct ids, replacing the first node carrying `c.id`
by `c` itself, where `c` is a member, changes nothing. -/
theorem replaceFirstById_self {c : Node} :
    ∀ {l : List Node}, distinctIds (l.map Node.id) = true → c ∈ l →
      replaceFirstById l c.id c = l := by
  intro l
  induction l with
  | nil => simp
  | cons d ds ih =>
    intro hdist hmem
    rw [List.map_cons, distinctIds_cons] at hdist
    by_cases hd : d.id == c.id
    · have hdc : d = c := by
        rcases List.mem_cons.mp hmem with h | h
        · exact h.symm
        · exfalso
          apply hdist.1
          have : d.id = c.id := by simpa using hd
          rw [this]
          exact List.mem_map_of_mem Node.id h
      simp [replaceFirstById, hd, hdc]
    · have hmem' : c ∈ ds := by
        rcases List.mem_cons.mp hmem with h | h
        · exact absurd (by simp [h]) hd
        · exact h
      simp [replaceFirstById, hd, ih hdist.2 hmem']

theorem mergeNodesSome_eq (d : List String) (n o : Node) :
    mergeNodesSome d n o =
      if d.contains n.id then none
      else if d.contains o.id then none
      else some (Node.mk n.id n.fields
        (mergeOldChildren d n.children o.children n.children)) := by
  cases o with
  | mk i f c => rfl

theorem mergeOldChildren_cons (d : List String) (nc : List Node)
    (oldChild : Node) (rest acc : List Node) :
    mergeOldChildren d nc (oldChild :: rest) acc =
      mergeOldChildren d nc rest
        (if d.contains oldChild.id then acc
         else if !(childMapHas nc oldChild.id) then acc ++ [oldChild]
         else
           match childMapGet nc oldChild.id with
           | none => replaceFirstById acc oldChild.id oldChild
           | some newerChild =>
             match mergeNodesSome d newerChild oldChild with
             | none => acc
             | some mergedChild => replaceFirstById acc oldChild.id mergedChild) :=
  rfl

theorem mergeNodesSome_some (d : List String) (n o : Node)
    (h1 : d.contains n.id = false) (h2 : d.contains o.id = false) :
    mergeNodesSome d n o = some (Node.mk n.id n.fields
      (mergeOldChildren d n.children o.children n.children)) := by
  rw [mergeNodesSome_eq, h1, h2]
  rfl

theorem mergeNodesSome_proj {d : List String} {n o r : Node}
    (h : mergeNodesSome d n o = some r) :
    r.id = n.id ∧ r.fields = n.fields ∧
      r.children = mergeOldChildren d n.children o.children n.children := by
  rw [mergeNodesSome_eq] at h
  by_cases h1 : d.contains n.id = true
  · rw [if_pos h1] at h; exact absurd h (by simp)
  · rw [if_neg h1] at h
    by_cases h2 : d.contains o.id = true
    · rw [if_pos h2] at h; exact absurd h (by simp)
    · rw [if_neg h2] at h
      have hr := Option.some.inj h
      subst hr
      exact ⟨rfl, rfl, rfl⟩

theorem hasId_eq (K : String) (n : Node) :
    hasId K n = (n.id == K || listHasId K n.children) := by
  cases n with
  | mk i f c => rfl

theorem wfNode_eq (n : Node) :
    wfNode n = (distinctIds (n.children.map Node.id) && wfList n.children) := by
  cases n with
  | mk i f c => rfl

theorem wfList_mem : ∀ {cs : List Node}, wfList cs = true →
    ∀ {c : Node}, c ∈ cs → wfNode c = true := by
  intro cs
  induction cs with
  | nil => intro _ c hc; simp at hc
  | cons x xs ih =>
    intro h c hc
    rw [wfList] at h
    simp only [Bool.and_eq_true] at h
    rcases List.mem_cons.mp hc with h1 | h1
    · subst h1; exact h.1
    · exact ih h.2 h1

theorem childMapHas_get_isSome {cs : List Node} {i : String}
    (h : childMapHas cs i = true) : ∃ c, childMapGet cs i = some c := by
  rcases childMapHas_iff.mp h with ⟨c, hc, hid⟩
  have : ∃ x ∈ cs.reverse, (x.id == i) = true :=
    ⟨c, List.mem_reverse.mpr hc, by simp [hid]⟩
  rcases List.find?_isSome.mpr this |> Option.isSome_iff_exists.mp with ⟨x, hx⟩
  exact ⟨x, hx⟩

theorem childMapGet_of_distinct {cs : List Node} {c : Node}
    (hdist : distinctIds (cs.map Node.id) = true) (hmem : c ∈ cs) :
    childMapGet cs c.id = some c := by
  induction cs with
  | nil => simp at hmem
  | cons x xs ih =>
    rw [List.map_cons, distinctIds_cons] at hdist
    rw [childMapGet, List.reverse_cons, List.find?_append]
    rcases List.mem_cons.mp hmem with h1 | h1
    · subst h1
      have hnone : xs.reverse.find? (fun y => y.id == c.id) = none := by
        rw [List.find?_eq_none]
        intro y hy hbeq
        apply hdist.1
        have : y.id = c.id := by simpa using hbeq
        rw [← this]
        exact List.mem_map_of_mem Node.id (List.mem_reverse.mp hy)
      rw [hnone]
      simp [Option.orElse]
    · have := ih hdist.2 h1
      rw [childMapGet] at this
      rw [this]
      rfl

theorem firstById_mem {l : List Node} {i : String} {c : Node}
    (h : firstById l i = some c) : c ∈ l ∧ c.id = i := by
  have h1 := List.find?_some h
  have h2 := List.mem_of_find?_eq_some h
  simp at h1
  exact ⟨h2, h1⟩

theorem firstById_append_left {l l' : List Node} {i : String} {c : Node}
    (h : firstById l i = some c) : firstById (l ++ l') i = some c := by
  rw [firstById] at h
  rw [firstById, List.find?_append, h]
  rfl

theorem firstById_of_distinct {cs : List Node} {c : Node}
    (hdist : distinctIds (cs.map Node.id) = true) (hmem : c ∈ cs) :
    firstById cs c.id = some c := by
  induction cs with
  | nil => simp at hmem
  | cons x xs ih =>
    rw [List.map_cons, distinctIds_cons] at hdist
    rcases List.mem_cons.mp hmem with h1 | h1
    · subst h1
      simp [firstById, List.find?_cons_of_pos]
    · have hne : (x.id == c.id) = false := by
        simp only [beq_eq_false_iff_ne, ne_eq]
        intro hxc
        apply hdist.1
        rw [hxc]
        exact List.mem_map_of_mem Node.id h1
      rw [firstById, List.find?_cons_of_neg _ (by simp [hne])]
      exact ih hdist.2 h1

theorem firstById_replaceFirst_same {l : List Node} {i : String} {m v : Node}
    (hm : m.id = i) (h : firstById l i = some v) :
    firstById (replaceFirstById l i m) i = some m := by
  induction l with
  | nil => simp [firstById] at h
  | cons c cs ih =>
    by_cases hc : (c.id == i) = true
    · rw [replaceFirstById, if_pos hc, firstById,
        List.find?_cons_of_pos _ (by simp [hm])]
    · rw [firstById, List.find?_cons_of_neg _ (by simp [hc])] at h
      rw [replaceFirstById, if_neg (by simp [hc]), firstById,
        List.find?_cons_of_neg _ (by simp [hc])]
      exact ih h

theorem firstById_replaceFirst_other {l : List Node} {i j : String} {m : Node}
    (hm : m.id = i) (hj : j ≠ i) :
    firstById (replaceFirstById l i m) j = firstById l j := by
  induction l with
  | nil => rfl
  | cons c cs ih =>
    by_cases hc : (c.id == i) = true
    · have hcne : (m.id == j) = false := by
        simp only [beq_eq_false_iff_ne, ne_eq, hm]
        exact fun h => hj h.symm
      have hci : c.id = i := by simpa using hc
      have hcne2 : (c.id == j) = false := by
        simp only [beq_eq_false_iff_ne, ne_eq, hci]
        exact fun h => hj h.symm
      rw [replaceFirstById, if_pos hc, firstById,
        List.find?_cons_of_neg _ (by simp [hcne]), firstById,
        List.find?_cons_of_neg _ (by simp [hcne2])]
    · rw [replaceFirstById, if_neg (by simp [hc])]
      by_cases hcj : (c.id == j) = true
      · rw [firstById, List.find?_cons_of_pos _ (by simp [hcj]), firstById,
          List.find?_cons_of_pos _ (by simp [hcj])]
      · rw [firstById, List.find?_cons_of_neg _ (by simp [hcj]), firstById,
          List.find?_cons_of_neg _ (by simp [hcj])]
        exact ih

/-- Fold invariant for the id-subset property: every element the
`forEach` loop can put into `mergedChildren` has all its ids within the
newer children or the older children. -/
theorem mergeOldChildren_sub (d : List String) (cs0 os0 : List Node) (K : String)
    (IH : ∀ oc ∈ os0, ∀ nc ∈ cs0, ∀ r, mergeNodesSome d nc oc = some r →
      hasId K r = true → hasId K nc = true ∨ hasId K oc = true) :
    ∀ (rest acc : List Node), (∀ y ∈ rest, y ∈ os0) →
      (∀ x ∈ acc, hasId K x = true →
        listHasId K cs0 = true ∨ listHasId K os0 = true) →
      ∀ x ∈ mergeOldChildren d cs0 rest acc, hasId K x = true →
        listHasId K cs0 = true ∨ listHasId K os0 = true := by
  intro rest
  induction rest with
  | nil =>
    intro acc _ hacc x hx
    exact hacc x hx
  | cons oldChild rest ih =>
    intro acc hsub hacc
    rw [mergeOldChildren_cons]
    have hold : oldChild ∈ os0 := hsub _ (List.mem_cons_self _ _)
    refine ih _ (fun y hy => hsub y (List.mem_cons_of_mem _ hy)) ?_
    intro x hx
    by_cases h1 : d.contains oldChild.id = true
    · rw [if_pos h1] at hx
      exact hacc x hx
    · rw [if_neg h1] at hx
      by_cases h2 : (!childMapHas cs0 oldChild.id) = true
      · rw [if_pos h2] at hx
        rcases List.mem_append.mp hx with h | h
        · exact hacc x h
        · have hxo : x = oldChild := by simpa using h
          intro hK
          right
          rw [listHasId_iff]
          exact ⟨oldChild, hold, hxo ▸ hK⟩
      · rw [if_neg h2] at hx
        split at hx
        next hg =>
          rcases replaceFirstById_mem hx with h | h
          · exact hacc x h
          · intro hK
            right
            rw [listHasId_iff]
            exact ⟨oldChild, hold, h ▸ hK⟩
        next newerChild hg =>
          split at hx
          next hm => exact hacc x hx
          next mergedChild hm =>
            rcases replaceFirstById_mem hx with h | h
            · exact hacc x h
            · intro hK
              have hnc := (childMapGet_mem hg).1
              rcases IH oldChild hold newerChild hnc mergedChild hm (h ▸ hK)
                with hh | hh
              · left
                rw [listHasId_iff]
                exact ⟨newerChild, hnc, hh⟩
              · right
                rw [listHasId_iff]
                exact ⟨oldChild, hold, hh⟩

/-- Every id occurring in a merged subtree occurs on the newer or the older
side: the merger invents no nodes. -/
theorem mergeNodesSome_hasId_sub :
    ∀ (o : Node) (d : List String) (n r : Node),
      mergeNodesSome d n o = some r →
      ∀ K, hasId K r = true → hasId K n = true ∨ hasId K o = true := by
  intro o
  induction o using node_strong_ind with
  | step o IHo =>
    intro d n r hmerge K hK
    rcases mergeNodesSome_proj hmerge with ⟨hid, _, hch⟩
    rw [hasId_eq, hid, hch, Bool.or_eq_true] at hK
    rcases hK with h | h
    · left
      rw [hasId_eq, h]
      rfl
    · rcases listHasId_iff.mp h with ⟨x, hx, hKx⟩
      have hmain := mergeOldChildren_sub d n.children o.children K
        (fun oc hoc nc _ r' hm' hK' => IHo oc hoc d nc r' hm' K hK')
        o.children n.children (fun y hy => hy)
        (fun z hz hKz => Or.inl (listHasId_iff.mpr ⟨z, hz, hKz⟩))
        x hx hKx
      rcases hmain with hh | hh
      · left
        rw [hasId_eq, hh]
        simp
      · right
        rw [hasId_eq, hh]
        simp

/-- Fold invariant for tombstone exclusion: if the deletion set contains
`K`, no newer child's subtree contains `K`, and every older child that is
not itself the `K` node is `K`-free, then no element the loop produces
contains `K`. -/
theorem mergeOldChildren_excl (d : List String) (cs0 os0 : List Node)
    (K : String) (hK : d.contains K = true)
    (hnew : ∀ x ∈ cs0, hasId K x = false)
    (holdKfree : ∀ oc ∈ os0, oc.id ≠ K → hasId K oc = false) :
    ∀ (rest acc : List Node), (∀ y ∈ rest, y ∈ os0) →
      (∀ x ∈ acc, hasId K x = false) →
      ∀ x ∈ mergeOldChildren d cs0 rest acc, hasId K x = false := by
  intro rest
  induction rest with
  | nil =>
    intro acc _ hacc x hx
    exact hacc x hx
  | cons oldChild rest ih =>
    intro acc hsub hacc
    rw [mergeOldChildren_cons]
    have hold : oldChild ∈ os0 := hsub _ (List.mem_cons_self _ _)
    refine ih _ (fun y hy => hsub y (List.mem_cons_of_mem _ hy)) ?_
    intro x hx
    by_cases h1 : d.contains oldChild.id = true
    · rw [if_pos h1] at hx
      exact hacc x hx
    · rw [if_neg h1] at hx
      have hidne : oldChild.id ≠ K := by
        intro he
        rw [he, hK] at h1
        exact h1 rfl
      have holdfree : hasId K oldChild = false := holdKfree oldChild hold hidne
      by_cases h2 : (!childMapHas cs0 oldChild.id) = true
      · rw [if_pos h2] at hx
        rcases List.mem_append.mp hx with h | h
        · exact hacc x h
        · have hxo : x = oldChild := by simpa using h
          rw [hxo]
          exact holdfree
      · rw [if_neg h2] at hx
        split at hx
        next hg =>
          rcases replaceFirstById_mem hx with h | h
          · exact hacc x h
          · rw [h]
            exact holdfree
        next newerChild hg =>
          split at hx
          next hm => exact hacc x hx
          next mergedChild hm =>
            rcases replaceFirstById_mem hx with h | h
            · exact hacc x h
            · rw [h]
              cases hha : hasId K mergedChild with
              | false => rfl
              | true =>
                exfalso
                rcases mergeNodesSome_hasId_sub oldChild d newerChild
                  mergedChild hm K hha with hh | hh
                · rw [hnew newerChild (childMapGet_mem hg).1] at hh
                  exact Bool.false_ne_true hh
                · rw [holdfree] at hh
                  exact Bool.false_ne_true hh

/-- Tombstone exclusion for a merge of two present nodes, in the shape the
amended deletion-wins claim needs: `K` is tombstoned, absent from the whole
newer subtree, and on the older side occurs at most as a direct child of the
root (per the snapshot-wide id-uniqueness invariant, a node id occurs at most
once, so this covers every older tree in which `K` sits directly under the
shared root). -/
theorem mergeNodesSome_excl {d : List String} {K : String} {n o : Node}
    (hK : d.contains K = true)
    (hn : hasId K n = false)
    (holdKfree : ∀ oc ∈ o.children, oc.id ≠ K → hasId K oc = false) :
    ∀ r, mergeNodesSome d n o = some r → hasId K r = false := by
  intro r hmerge
  rcases mergeNodesSome_proj hmerge with ⟨hid, _, hch⟩
  rw [hasId_eq, hid, hch]
  rw [hasId_eq, Bool.or_eq_false_iff] at hn
  rw [hn.1]
  rw [Bool.false_or]
  have hnewChildren : ∀ x ∈ n.children, hasId K x = false := by
    intro x hx
    cases hxc : hasId K x with
    | false => rfl
    | true =>
      exfalso
      have h2 : listHasId K n.children = true := listHasId_iff.mpr ⟨x, hx, hxc⟩
      rw [h2] at hn
      exact Bool.false_ne_true hn.2.symm
  cases hl : listHasId K (mergeOldChildren d n.children o.children n.children) with
  | false => rfl
  | true =>
    exfalso
    rcases listHasId_iff.mp hl with ⟨x, hx, hKx⟩
    have hres := mergeOldChildren_excl d n.children o.children K hK
      hnewChildren holdKfree o.children n.children (fun y hy => hy)
      hnewChildren x hx
    rw [hres] at hKx
    exact Bool.false_ne_true hKx

/-- Self-merge fold invariant: replaying a node's own children against
itself leaves the accumulator untouched (needs sibling-distinct ids so that
the map lookup and the `findIndex` replacement both land on the child
itself). -/
theorem mergeOldChildren_self (d : List String) (cs0 : List Node)
    (hdist : distinctIds (cs0.map Node.id) = true)
    (IH : ∀ c ∈ cs0, d.contains c.id = false → mergeNodesSome d c c = some c) :
    ∀ (rest : List Node), (∀ y ∈ rest, y ∈ cs0) →
      mergeOldChildren d cs0 rest cs0 = cs0 := by
  intro rest
  induction rest with
  | nil => intro _; rfl
  | cons oldChild rest ih =>
    intro hsub
    rw [mergeOldChildren_cons]
    have hmem : oldChild ∈ cs0 := hsub _ (List.mem_cons_self _ _)
    have htail : ∀ y ∈ rest, y ∈ cs0 :=
      fun y hy => hsub y (List.mem_cons_of_mem _ hy)
    by_cases h1 : d.contains oldChild.id = true
    · rw [if_pos h1]
      exact ih htail
    · rw [if_neg h1]
      have hhas : childMapHas cs0 oldChild.id = true :=
        childMapHas_iff.mpr ⟨oldChild, hmem, rfl⟩
      have h1' : d.contains oldChild.id = false := by simpa using h1
      simp only [hhas, Bool.not_true, Bool.false_eq_true, if_false,
        childMapGet_of_distinct hdist hmem, IH oldChild hmem h1',
        replaceFirstById_self hdist hmem]
      exact ih htail

/-- Merging a well-formed node with itself returns it unchanged, provided
its own id is not in the deletion set. -/
theorem mergeNodesSome_self :
    ∀ (t : Node), wfNode t = true → ∀ d : List String,
      d.contains t.id = false → mergeNodesSome d t t = some t := by
  intro t
  induction t using node_strong_ind with
  | step t IHt =>
    intro hwf d hid
    rw [mergeNodesSome_some d t t hid hid]
    rw [wfNode_eq, Bool.and_eq_true] at hwf
    rw [mergeOldChildren_self d t.children hwf.1
      (fun c hc hcid => IHt c hc (wfList_mem hwf.2 hc) d hcid)
      t.children (fun y hy => hy)]
    cases t with
    | mk i f cs => rfl

/-- Preservation fold invariant: for every newer child `c`, the first entry
of the accumulator carrying `c.id` keeps all of `c`'s ids.  Replacements
only ever swap that entry for a recursive merge of `c` itself (sibling ids
being distinct), and appends cannot shadow it. -/
theorem mergeOldChildren_preserve (d : List String) (cs0 os0 : List Node)
    (hdist : distinctIds (cs0.map Node.id) = true)
    (hwf : wfList cs0 = true)
    (IH : ∀ oc ∈ os0, ∀ nc : Node, wfNode nc = true → ∀ r,
      mergeNodesSome d nc oc = some r →
      ∀ K, hasId K nc = true → hasId K r = true) :
    ∀ (rest acc : List Node), (∀ y ∈ rest, y ∈ os0) →
      (∀ c ∈ cs0, ∃ v, firstById acc c.id = some v ∧
        ∀ K, hasId K c = true → hasId K v = true) →
      ∀ c ∈ cs0, ∃ v,
        firstById (mergeOldChildren d cs0 rest acc) c.id = some v ∧
        ∀ K, hasId K c = true → hasId K v = true := by
  intro rest
  induction rest with
  | nil => intro acc _ hacc; exact hacc
  | cons oldChild rest ih =>
    intro acc hsub hacc
    rw [mergeOldChildren_cons]
    refine ih _ (fun y hy => hsub y (List.mem_cons_of_mem _ hy)) ?_
    intro c hc
    by_cases h1 : d.contains oldChild.id = true
    · rw [if_pos h1]
      exact hacc c hc
    · rw [if_neg h1]
      by_cases h2 : (!childMapHas cs0 oldChild.id) = true
      · rw [if_pos h2]
        rcases hacc c hc with ⟨v, hv, hpres⟩
        exact ⟨v, firstById_append_left hv, hpres⟩
      · rw [if_neg h2]
        split
        next hg =>
          exfalso
          have hhas : childMapHas cs0 oldChild.id = true := by simpa using h2
          rcases childMapHas_get_isSome hhas with ⟨cc, hcc⟩
          rw [hg] at hcc
          exact Option.noConfusion hcc
        next newerChild hg =>
          split
          next hm => exact hacc c hc
          next mergedChild hm =>
            have hgm := childMapGet_mem hg
            have hmid : mergedChild.id = oldChild.id := by
              have hp := (mergeNodesSome_proj hm).1
              rw [hp, hgm.2]
            by_cases hcid : c.id = oldChild.id
            · have hgc : childMapGet cs0 c.id = some c :=
                childMapGet_of_distinct hdist hc
              rw [hcid, hg] at hgc
              have hceq : newerChild = c := Option.some.inj hgc
              rcases hacc c hc with ⟨v, hv, _⟩
              refine ⟨mergedChild, ?_, ?_⟩
              · rw [hcid]
                exact firstById_replaceFirst_same hmid (hcid ▸ hv)
              · intro K hK
                refine IH oldChild (hsub _ (List.mem_cons_self _ _)) newerChild
                  ?_ mergedChild hm K ?_
                · rw [hceq]
                  exact wfList_mem hwf hc
                · rw [hceq]
                  exact hK
            · rcases hacc c hc with ⟨v, hv, hpres⟩
              refine ⟨v, ?_, hpres⟩
              rw [firstById_replaceFirst_other hmid hcid]
              exact hv

/-- Every id in a well-formed newer node survives into the merge result
(whenever the merge of the two roots returns a node at all). -/
theorem mergeNodesSome_preserve :
    ∀ (o : Node) (d : List String) (n : Node), wfNode n = true →
      ∀ r, mergeNodesSome d n o = some r →
        ∀ K, hasId K n = true → hasId K r = true := by
  intro o
  induction o using node_strong_ind with
  | step o IHo =>
    intro d n hwf r hmerge K hK
    rcases mergeNodesSome_proj hmerge with ⟨hid, _, hch⟩
    rw [hasId_eq, hid, hch]
    rw [hasId_eq, Bool.or_eq_true] at hK
    rcases hK with h | h
    · rw [h]
      simp
    · rw [wfNode_eq, Bool.and_eq_true] at hwf
      rcases listHasId_iff.mp h with ⟨c, hc, hKc⟩
      rcases mergeOldChildren_preserve d n.children o.children hwf.1 hwf.2
        (fun oc hoc nc hwfnc r' hm' K' hK' => IHo oc hoc d nc hwfnc r' hm' K' hK')
        o.children n.children (fun y hy => hy)
        (fun c' hc' => ⟨c', firstById_of_distinct hwf.1 hc', fun _ hK' => hK'⟩)
        c hc with ⟨v, hv, hpres⟩
      have hvmem := (firstById_mem hv).1
      have hl : listHasId K
          (mergeOldChildren d n.children o.children n.children) = true :=
        listHasId_iff.mpr ⟨v, hvmem, hpres K hKc⟩
      rw [hl]
      simp

/-- The snapshot the reconciler uses as merge base:
`localTime > cloudTime ? localData : cloudData`. -/
def newerData (cloudData localData : MindmapData) : MindmapData :=
  if cloudData.timestamp < localData.timestamp then localData else cloudData

/-- The snapshot the reconciler uses as contributor:
`localTime > cloudTime ? cloudData : localData`. -/
def olderData (cloudData localData : MindmapData) : MindmapData :=
  if cloudData.timestamp < localData.timestamp then cloudData else localData

theorem mergeMindmapData_eq (now : Int) (cloudData localData : MindmapData) :
    mergeMindmapData now cloudData localData =
      { tree := mergeNodes (newerData cloudData localData).tree
          (olderData cloudData localData).tree
          (mergedDeletedIds cloudData localData)
        currentCenterId := (newerData cloudData localData).currentCenterId
        viewOffset := (newerData cloudData localData).viewOffset
        deletedNodes := some (unionRecords cloudData localData)
        timestamp := now } := rfl

theorem mem_replaceFirstById_of_ne {Z m : Node} {i : String} (hne : Z.id ≠ i) :
    ∀ {l : List Node}, Z ∈ l → Z ∈ replaceFirstById l i m := by
  intro l
  induction l with
  | nil => simp
  | cons c cs ih =>
    intro hz
    rw [replaceFirstById]
    by_cases hc : (c.id == i) = true
    · rw [if_pos hc]
      rcases List.mem_cons.mp hz with h | h
      · exfalso
        apply hne
        rw [h]
        simpa using hc
      · exact List.mem_cons_of_mem _ h
    · rw [if_neg hc]
      rcases List.mem_cons.mp hz with h | h
      · rw [h]
        exact List.mem_cons_self _ _
      · exact List.mem_cons_of_mem _ (ih h)

/-- An accumulator element whose id is never the target of a replacement
(no remaining older child both carries its id and matches a newer child)
survives the rest of the loop. -/
theorem mergeOldChildren_stable (d : List String) (cs0 : List Node) (Z : Node) :
    ∀ (rest acc : List Node), Z ∈ acc →
      (∀ oc ∈ rest, oc.id ≠ Z.id ∨ childMapHas cs0 oc.id = false) →
      Z ∈ mergeOldChildren d cs0 rest acc := by
  intro rest
  induction rest with
  | nil => intro acc hz _; exact hz
  | cons oldChild rest ih =>
    intro acc hz hrest
    rw [mergeOldChildren_cons]
    refine ih _ ?_ (fun oc hoc => hrest oc (List.mem_cons_of_mem _ hoc))
    by_cases h1 : d.contains oldChild.id = true
    · rw [if_pos h1]
      exact hz
    · rw [if_neg h1]
      by_cases h2 : (!childMapHas cs0 oldChild.id) = true
      · rw [if_pos h2]
        exact List.mem_append_left _ hz
      · rw [if_neg h2]
        have hne : oldChild.id ≠ Z.id := by
          rcases hrest oldChild (List.mem_cons_self _ _) with h | h
          · exact h
          · exfalso
            rw [h] at h2
            exact h2 rfl
        split
        next hg => exact mem_replaceFirstById_of_ne (fun he => hne he.symm) hz
        next newerChild hg =>
          split
          next hm => exact hz
          next mergedChild hm =>
            exact mem_replaceFirstById_of_ne (fun he => hne he.symm) hz

/-- An older child whose id is tombstone-free and absent from the newer
children is appended by the loop and survives to the end. -/
theorem mergeOldChildren_older_only (d : List String) (cs0 : List Node)
    (Y : Node) (hd : d.contains Y.id = false)
    (hhas : childMapHas cs0 Y.id = false) :
    ∀ (rest acc : List Node), Y ∈ rest →
      Y ∈ mergeOldChildren d cs0 rest acc := by
  intro rest
  induction rest with
  | nil => intro acc h; simp at h
  | cons oldChild rest ih =>
    intro acc hy
    rcases List.mem_cons.mp hy with h | h
    · subst h
      rw [mergeOldChildren_cons, if_neg (by rw [hd]; simp), if_pos (by rw [hhas]; rfl)]
      refine mergeOldChildren_stable d cs0 Y rest (acc ++ [Y])
        (List.mem_append_right _ (List.mem_cons_self _ _)) ?_
      intro oc _
      by_cases hoc : oc.id = Y.id
      · exact Or.inr (hoc ▸ hhas)
      · exact Or.inl hoc
    · rw [mergeOldChildren_cons]
      exact ih _ h

/-- Membership in the merged tombstone record set is exactly membership in
either input's record set. -/
theorem mem_unionRecords {cloudData localData : MindmapData} {tr : TombRecord} :
    tr ∈ unionRecords cloudData localData ↔
      tr ∈ cloudData.deletedNodes.getD [] ∨
      tr ∈ localData.deletedNodes.getD [] := by
  rw [unionRecords]
  simp [jsDedup_mem, List.mem_append]

/-- Membership in the parsed deletion-id set is exactly: some record on one
of the two sides parses to that id. -/
theorem mem_mergedDeletedIds {cloudData localData : MindmapData} {K : String} :
    K ∈ mergedDeletedIds cloudData localData ↔
      ∃ tr, (tr ∈ cloudData.deletedNodes.getD [] ∨
             tr ∈ localData.deletedNodes.getD []) ∧ parseId tr = some K := by
  rw [mergedDeletedIds, jsDedup_mem, List.mem_filterMap]
  constructor
  · rintro ⟨a, ha, hpa⟩
    exact ⟨a, mem_unionRecords.mp ha, hpa⟩
  · rintro ⟨a, ha, hpa⟩
    exact ⟨a, mem_unionRecords.mpr ha, hpa⟩

/-! ### Concrete snapshots used by the counterexamples and witnesses -/

/-- Zero view offset. -/
def offset0 : ViewOffset := { x := 0, y := 0 }

/-- A parseable tombstone record naming node id `K`
(the raw string is `{"id":"K"}`). -/
def recK : TombRecord := TombRecord.valid "\x7b\"id\":\"K\"\x7d" "K"

/-- A parseable tombstone record naming node id `R`. -/
def recR : TombRecord := TombRecord.valid "\x7b\"id\":\"R\"\x7d" "R"

/-- A tombstone record whose raw string fails `JSON.parse`. -/
def recBad : TombRecord := TombRecord.invalid "not json"

def nodeK : Node := Node.mk "K" [("label", "edited")] []

def nodeA : Node := Node.mk "A" [("label", "a")] []

def nodeB : Node := Node.mk "B" [("label", "b")] []

/-- Replica that deleted `K`: tombstones `K`, `K` absent from its tree. -/
def cloudDel : MindmapData :=
  { tree := some (Node.mk "root" [] []), currentCenterId := "root",
    viewOffset := offset0, deletedNodes := some [recK], timestamp := 1 }

/-- Replica that concurrently edited `K` and is newer; does not tombstone. -/
def localEdit : MindmapData :=
  { tree := some (Node.mk "root" [] [nodeK]), currentCenterId := "root",
    viewOffset := offset0, deletedNodes := some [], timestamp := 2 }

def c1NewRoot : Node := Node.mk "root" [] [nodeA]

def c1OldRoot : Node := Node.mk "root" [] [nodeA, nodeK]

/-- Deleting replica, this time the newer side. -/
def cloudDelNewer : MindmapData :=
  { tree := some c1NewRoot, currentCenterId := "root",
    viewOffset := offset0, deletedNodes := some [recK], timestamp := 10 }

/-- Editing replica, this time the older side. -/
def localEditOlder : MindmapData :=
  { tree := some c1OldRoot, currentCenterId := "root",
    viewOffset := offset0, deletedNodes := some [], timestamp := 3 }

/-- Cloud-side snapshot of an exact timestamp tie. -/
def cTie : MindmapData :=
  { tree := some (Node.mk "root" [] []), currentCenterId := "cloudCenter",
    viewOffset := { x := 1, y := 2 }, deletedNodes := some [], timestamp := 7 }

/-- Local-side snapshot of an exact timestamp tie, differing in both
snapshot-level scalars. -/
def lTie : MindmapData :=
  { tree := some (Node.mk "root" [] []), currentCenterId := "localCenter",
    viewOffset := { x := 3, y := 4 }, deletedNodes := some [], timestamp := 7 }

def c2Old : MindmapData := { cTie with timestamp := 1 }

def c2New : MindmapData := { lTie with timestamp := 2 }

def cNodeNew : Node := Node.mk "N" [("label", "newer")] []

def cNodeOld : Node := Node.mk "N" [("label", "older")] []

def c2res : Node := Node.mk "N" [("label", "newer")] []

def selfDelRoot : Node := Node.mk "R" [] []

/-- A snapshot whose tombstones name its own tree root. -/
def selfDel : MindmapData :=
  { tree := some selfDelRoot, currentCenterId := "R",
    viewOffset := offset0, deletedNodes := some [recR], timestamp := 1 }

def okRoot : Node := Node.mk "R" [] [nodeA]

/-- A well-formed snapshot whose only tombstone record is unparsable. -/
def selfOk : MindmapData :=
  { tree := some okRoot, currentCenterId := "R",
    viewOffset := offset0, deletedNodes := some [recBad], timestamp := 4 }

/-- The spec's concrete scenario: remote root with child `A`, older. -/
def remoteC6 : MindmapData :=
  { tree := some (Node.mk "root" [] [nodeA]), currentCenterId := "root",
    viewOffset := offset0, deletedNodes := some [], timestamp := 1 }

/-- The spec's concrete scenario: local root with children `A, B`, newer. -/
def localC6 : MindmapData :=
  { tree := some (Node.mk "root" [] [nodeA, nodeB]), currentCenterId := "root",
    viewOffset := offset0, deletedNodes := some [], timestamp := 2 }

def nodeX : Node := Node.mk "X" [("label", "x")] []

def nodeY : Node := Node.mk "Y" [("label", "y")] []

/-- Newer parent `N` with its own addition `X`. -/
def c6Newer : Node := Node.mk "N" [] [nodeA, nodeX]

/-- Older parent `N` with its own addition `Y`. -/
def c6Older : Node := Node.mk "N" [] [nodeA, nodeY]

/-! ### Claim theorems -/

/-- Counterexample for claim C1: cloud tombstones `K` (absent from its
tree), local still holds an edited `K` and does not tombstone it, local is
strictly newer — yet the merged tree still contains a node with id `K`. -/
theorem C1_counterexample :
    (mergedDeletedIds cloudDel localEdit).contains "K" = true ∧
    treeHasId cloudDel.tree "K" = false ∧
    treeHasId localEdit.tree "K" = true ∧
    localEdit.deletedNodes = some [] ∧
    cloudDel.timestamp < localEdit.timestamp ∧
    treeHasId (mergeMindmapData 5 cloudDel localEdit).tree "K" = true := by
  refine ⟨rfl, rfl, rfl, rfl, by decide, rfl⟩

/-- Claim C1, amended: the tombstone record always survives into the merged
set, but the merged tree is only guaranteed to drop `K` when the snapshot
still holding `K` is the older side and `K` occurs there only as a direct
child of the (shared) root — when the snapshot holding `K` is the newer
side, `K` persists. -/
theorem C1_deletion_wins_amended (now : Int) (cloudData localData : MindmapData)
    (K : String) (nroot oroot : Node)
    (htn : (newerData cloudData localData).tree = some nroot)
    (hto : (olderData cloudData localData).tree = some oroot)
    (hK : (mergedDeletedIds cloudData localData).contains K = true)
    (hn : hasId K nroot = false)
    (holdc : ∀ oc ∈ oroot.children, oc.id ≠ K → hasId K oc = false) :
    treeHasId (mergeMindmapData now cloudData localData).tree K = false ∧
    ∀ tr, (tr ∈ cloudData.deletedNodes.getD [] ∨
           tr ∈ localData.deletedNodes.getD []) →
      tr ∈ (mergeMindmapData now cloudData localData).deletedNodes.getD [] := by
  constructor
  · have htree : (mergeMindmapData now cloudData localData).tree =
        mergeNodes (newerData cloudData localData).tree
          (olderData cloudData localData).tree
          (mergedDeletedIds cloudData localData) := rfl
    rw [htree, htn, hto]
    show treeHasId
      (mergeNodesSome (mergedDeletedIds cloudData localData) nroot oroot) K = false
    cases hm : mergeNodesSome (mergedDeletedIds cloudData localData) nroot oroot with
    | none => rfl
    | some r =>
      show hasId K r = false
      exact mergeNodesSome_excl hK hn holdc r hm
  · intro tr htr
    have hd : (mergeMindmapData now cloudData localData).deletedNodes =
        some (unionRecords cloudData localData) := rfl
    rw [hd, Option.getD_some]
    exact mem_unionRecords.mpr htr

/-- Witness for the amended claim C1 at a concrete pair where the deleting
replica is the newer side and `K` is a direct child of the older root. -/
theorem C1_witness :
    ((newerData cloudDelNewer localEditOlder).tree = some c1NewRoot ∧
     (olderData cloudDelNewer localEditOlder).tree = some c1OldRoot ∧
     (mergedDeletedIds cloudDelNewer localEditOlder).contains "K" = true ∧
     hasId "K" c1NewRoot = false ∧
     (∀ oc ∈ c1OldRoot.children, oc.id ≠ "K" → hasId "K" oc = false)) ∧
    (treeHasId (mergeMindmapData 5 cloudDelNewer localEditOlder).tree "K" = false ∧
     ∀ tr, (tr ∈ cloudDelNewer.deletedNodes.getD [] ∨
            tr ∈ localEditOlder.deletedNodes.getD []) →
       tr ∈ (mergeMindmapData 5 cloudDelNewer localEditOlder).deletedNodes.getD []) :=
  ⟨⟨rfl, rfl, rfl, rfl, by decide⟩,
   C1_deletion_wins_amended 5 cloudDelNewer localEditOlder "K" c1NewRoot c1OldRoot
     rfl rfl rfl rfl (by decide)⟩

/-- Counterexample for claim C2: on an exact timestamp tie the merged
snapshot-level scalars come from the cloud (remote) side, not from the
side passed as local. -/
theorem C2_counterexample :
    cTie.timestamp = lTie.timestamp ∧
    cTie.currentCenterId ≠ lTie.currentCenterId ∧
    (mergeMindmapData 9 cTie lTie).currentCenterId ≠ lTie.currentCenterId ∧
    (mergeMindmapData 9 cTie lTie).currentCenterId = cTie.currentCenterId ∧
    (mergeMindmapData 9 cTie lTie).viewOffset ≠ lTie.viewOffset := by
  refine ⟨rfl, ?_, ?_, rfl, ?_⟩ <;> decide

/-- Claim C2, amended: the merged snapshot-level scalars come from the
snapshot with the strictly greater timestamp, and on an exact tie from the
snapshot passed as remote (the cloud-stored one); every node the merger
constructs takes its id and scalar payload fields from the newer-side
node of its pair. -/
theorem C2_newer_wins_amended (now : Int) (cloudData localData : MindmapData) :
    ((cloudData.timestamp < localData.timestamp →
        (mergeMindmapData now cloudData localData).currentCenterId =
          localData.currentCenterId ∧
        (mergeMindmapData now cloudData localData).viewOffset =
          localData.viewOffset) ∧
     (¬ cloudData.timestamp < localData.timestamp →
        (mergeMindmapData now cloudData localData).currentCenterId =
          cloudData.currentCenterId ∧
        (mergeMindmapData now cloudData localData).viewOffset =
          cloudData.viewOffset)) ∧
    (∀ (d : List String) (n o r : Node), mergeNodesSome d n o = some r →
      r.id = n.id ∧ r.fields = n.fields) := by
  refine ⟨⟨?_, ?_⟩, ?_⟩
  · intro h
    have he : newerData cloudData localData = localData := by
      rw [newerData, if_pos h]
    constructor
    · show (newerData cloudData localData).currentCenterId =
        localData.currentCenterId
      rw [he]
    · show (newerData cloudData localData).viewOffset = localData.viewOffset
      rw [he]
  · intro h
    have he : newerData cloudData localData = cloudData := by
      rw [newerData, if_neg h]
    constructor
    · show (newerData cloudData localData).currentCenterId =
        cloudData.currentCenterId
      rw [he]
    · show (newerData cloudData localData).viewOffset = cloudData.viewOffset
      rw [he]
  · intro d n o r hm
    exact ⟨(mergeNodesSome_proj hm).1, (mergeNodesSome_proj hm).2.1⟩

/-- Witness for the amended claim C2: the strictly-newer case on concrete
snapshots, and the node-level newer-wins on a concrete matched pair. -/
theorem C2_witness :
    (c2Old.timestamp < c2New.timestamp ∧
     (mergeMindmapData 9 c2Old c2New).currentCenterId = c2New.currentCenterId ∧
     (mergeMindmapData 9 c2Old c2New).viewOffset = c2New.viewOffset) ∧
    (mergeNodesSome [] cNodeNew cNodeOld = some c2res ∧
     c2res.id = cNodeNew.id ∧ c2res.fields = cNodeNew.fields) :=
  ⟨⟨by decide, (C2_newer_wins_amended 9 c2Old c2New).1.1 (by decide)⟩,
   ⟨rfl, (C2_newer_wins_amended 9 c2Old c2New).2 [] cNodeNew cNodeOld c2res rfl⟩⟩

/-- Claim C3: on an exact timestamp tie the reconciler treats the remote
(cloud) snapshot as newer: its tree is the merge base and its
`currentCenterId` and `viewOffset` are copied to the output. -/
theorem C3_tie_break_remote (now : Int) (cloudData localData : MindmapData)
    (h : localData.timestamp = cloudData.timestamp) :
    (mergeMindmapData now cloudData localData).tree =
      mergeNodes cloudData.tree localData.tree
        (mergedDeletedIds cloudData localData) ∧
    (mergeMindmapData now cloudData localData).currentCenterId =
      cloudData.currentCenterId ∧
    (mergeMindmapData now cloudData localData).viewOffset =
      cloudData.viewOffset := by
  have hlt : ¬ cloudData.timestamp < localData.timestamp := by
    rw [h]
    exact lt_irrefl _
  have he : newerData cloudData localData = cloudData := by
    rw [newerData, if_neg hlt]
  have ho : olderData cloudData localData = localData := by
    rw [olderData, if_neg hlt]
  refine ⟨?_, ?_, ?_⟩
  · show mergeNodes (newerData cloudData localData).tree
      (olderData cloudData localData).tree
      (mergedDeletedIds cloudData localData) = _
    rw [he, ho]
  · show (newerData cloudData localData).currentCenterId =
      cloudData.currentCenterId
    rw [he]
  · show (newerData cloudData localData).viewOffset = cloudData.viewOffset
    rw [he]

/-- Witness for claim C3 on a concrete exact tie. -/
theorem C3_witness :
    lTie.timestamp = cTie.timestamp ∧
    ((mergeMindmapData 9 cTie lTie).tree =
       mergeNodes cTie.tree lTie.tree (mergedDeletedIds cTie lTie) ∧
     (mergeMindmapData 9 cTie lTie).currentCenterId = cTie.currentCenterId ∧
     (mergeMindmapData 9 cTie lTie).viewOffset = cTie.viewOffset) :=
  ⟨rfl, C3_tie_break_remote 9 cTie lTie rfl⟩

/-- Claim C4: the merged tombstone record set is exactly the union of the
two inputs' record sets (duplicates collapsed, a missing `deletedNodes`
field treated as empty): nothing is removed, nothing beyond the union is
added. -/
theorem C4_tombstone_union (now : Int) (cloudData localData : MindmapData)
    (tr : TombRecord) :
    tr ∈ (mergeMindmapData now cloudData localData).deletedNodes.getD [] ↔
      tr ∈ cloudData.deletedNodes.getD [] ∨
      tr ∈ localData.deletedNodes.getD [] := by
  have hd : (mergeMindmapData now cloudData localData).deletedNodes =
      some (unionRecords cloudData localData) := rfl
  rw [hd, Option.getD_some]
  exact mem_unionRecords

/-- Claim C5 counterexample: a snapshot whose tombstones name its own tree
root merges with itself to a `null` tree, not a tree structurally equal to
the input. -/
theorem C5_counterexample :
    ¬ ((mergeMindmapData 9 selfDel selfDel).tree = selfDel.tree) := by
  intro h
  have h2 : (none : Option Node) = some selfDelRoot := h
  exact Option.noConfusion h2

/-- Claim C5, amended: merging a snapshot with itself yields a structurally
equal tree provided the tree is well-formed (sibling ids distinct, per the
data-model uniqueness invariant) and the snapshot's parsed deletion set does
not contain the root's id (per the invariant that roots are never
tombstoned). -/
theorem C5_idempotence_amended (now : Int) (S : MindmapData) (root : Node)
    (htree : S.tree = some root) (hwf : wfNode root = true)
    (hid : (mergedDeletedIds S S).contains root.id = false) :
    (mergeMindmapData now S S).tree = S.tree := by
  have htree2 : (mergeMindmapData now S S).tree =
      mergeNodes (newerData S S).tree (olderData S S).tree
        (mergedDeletedIds S S) := rfl
  have hnew : newerData S S = S := by
    rw [newerData, if_neg (lt_irrefl _)]
  have holdr : olderData S S = S := by
    rw [olderData, if_neg (lt_irrefl _)]
  rw [htree2, hnew, holdr, htree]
  show mergeNodesSome (mergedDeletedIds S S) root root = some root
  exact mergeNodesSome_self root hwf _ hid

/-- Witness for the amended claim C5 on a concrete well-formed snapshot
(with an unparsable tombstone record, which contributes nothing). -/
theorem C5_witness :
    (selfOk.tree = some okRoot ∧ wfNode okRoot = true ∧
     (mergedDeletedIds selfOk selfOk).contains okRoot.id = false) ∧
    (mergeMindmapData 4 selfOk selfOk).tree = selfOk.tree :=
  ⟨⟨rfl, rfl, rfl⟩, C5_idempotence_amended 4 selfOk okRoot rfl rfl rfl⟩

/-- Claim C6: additions made on either side under a node present on both
sides are both kept (when neither addition is tombstoned and the two parent
ids are not tombstoned), and the spec's concrete scenario — remote
root→(A) at time 1, local root→(A,B) at time 2, no tombstones — merges to
root→(A,B) with empty tombstones and the merge-time timestamp. -/
theorem C6_addition_preservation :
    (∀ (d : List String) (n o X Y : Node),
      d.contains n.id = false → d.contains o.id = false →
      X ∈ n.children → Y ∈ o.children →
      childMapHas o.children X.id = false →
      childMapHas n.children Y.id = false →
      d.contains X.id = false → d.contains Y.id = false →
      ∃ r, mergeNodesSome d n o = some r ∧ X ∈ r.children ∧ Y ∈ r.children) ∧
    mergeMindmapData 3 remoteC6 localC6 =
      { tree := some (Node.mk "root" [] [nodeA, nodeB])
        currentCenterId := "root"
        viewOffset := offset0
        deletedNodes := some []
        timestamp := 3 } := by
  constructor
  · intro d n o X Y hn ho hX hY hXo hYn _hXd hYd
    refine ⟨Node.mk n.id n.fields
      (mergeOldChildren d n.children o.children n.children),
      mergeNodesSome_some d n o hn ho, ?_, ?_⟩
    · show X ∈ mergeOldChildren d n.children o.children n.children
      refine mergeOldChildren_stable d n.children X o.children n.children hX ?_
      intro oc hoc
      left
      intro he
      have hcontr := childMapHas_iff.mpr ⟨oc, hoc, he⟩
      rw [hXo] at hcontr
      exact Bool.false_ne_true hcontr
    · show Y ∈ mergeOldChildren d n.children o.children n.children
      exact mergeOldChildren_older_only d n.children Y hYd hYn
        o.children n.children hY
  · rfl

/-- Witness for claim C6's general part: concrete parents sharing id `N`,
newer adds `X`, older adds `Y`, both survive. -/
theorem C6_witness :
    (([] : List String).contains c6Newer.id = false ∧
     ([] : List String).contains c6Older.id = false ∧
     nodeX ∈ c6Newer.children ∧ nodeY ∈ c6Older.children ∧
     childMapHas c6Older.children nodeX.id = false ∧
     childMapHas c6Newer.children nodeY.id = false ∧
     ([] : List String).contains nodeX.id = false ∧
     ([] : List String).contains nodeY.id = false) ∧
    (∃ r, mergeNodesSome [] c6Newer c6Older = some r ∧
      nodeX ∈ r.children ∧ nodeY ∈ r.children) :=
  ⟨⟨rfl, rfl,
    List.mem_cons_of_mem nodeA (List.mem_cons_self nodeX []),
    List.mem_cons_of_mem nodeA (List.mem_cons_self nodeY []),
    rfl, rfl, rfl, rfl⟩,
   C6_addition_preservation.1 [] c6Newer c6Older nodeX nodeY rfl rfl
     (List.mem_cons_of_mem nodeA (List.mem_cons_self nodeX []))
     (List.mem_cons_of_mem nodeA (List.mem_cons_self nodeY []))
     rfl rfl rfl rfl⟩

/-- Claim C7: for well-formed snapshots whose two root ids are not in the
parsed deletion set, every id in the newer snapshot's tree also occurs in
the merged tree (the newer side is never pruned below the root), and every
id in the merged tree comes from one of the two input trees. -/
theorem C7_newer_side_preserved (now : Int) (cloudData localData : MindmapData)
    (nroot oroot : Node)
    (htn : (newerData cloudData localData).tree = some nroot)
    (hto : (olderData cloudData localData).tree = some oroot)
    (hwfn : wfNode nroot = true) (_hwfo : wfNode oroot = true)
    (hn : (mergedDeletedIds cloudData localData).contains nroot.id = false)
    (ho : (mergedDeletedIds cloudData localData).contains oroot.id = false) :
    ∃ r, (mergeMindmapData now cloudData localData).tree = some r ∧
      (∀ K, hasId K nroot = true → hasId K r = true) ∧
      (∀ K, hasId K r = true → hasId K nroot = true ∨ hasId K oroot = true) := by
  have htree : (mergeMindmapData now cloudData localData).tree =
      mergeNodes (newerData cloudData localData).tree
        (olderData cloudData localData).tree
        (mergedDeletedIds cloudData localData) := rfl
  rw [htree, htn, hto]
  have hsome := mergeNodesSome_some (mergedDeletedIds cloudData localData)
    nroot oroot hn ho
  refine ⟨_, hsome, ?_, ?_⟩
  · intro K hK
    exact mergeNodesSome_preserve oroot _ nroot hwfn _ hsome K hK
  · intro K hK
    exact mergeNodesSome_hasId_sub oroot _ nroot _ hsome K hK

/-- Witness for claim C7 on a concrete pair with a tombstoned id `K` that
only the older side still holds. -/
theorem C7_witness :
    ((newerData cloudDelNewer localEditOlder).tree = some c1NewRoot ∧
     (olderData cloudDelNewer localEditOlder).tree = some c1OldRoot ∧
     wfNode c1NewRoot = true ∧ wfNode c1OldRoot = true ∧
     (mergedDeletedIds cloudDelNewer localEditOlder).contains
       c1NewRoot.id = false ∧
     (mergedDeletedIds cloudDelNewer localEditOlder).contains
       c1OldRoot.id = false) ∧
    (∃ r, (mergeMindmapData 5 cloudDelNewer localEditOlder).tree = some r ∧
      (∀ K, hasId K c1NewRoot = true → hasId K r = true) ∧
      (∀ K, hasId K r = true →
        hasId K c1NewRoot = true ∨ hasId K c1OldRoot = true)) :=
  ⟨⟨rfl, rfl, rfl, rfl, rfl, rfl⟩,
   C7_newer_side_preserved 5 cloudDelNewer localEditOlder c1NewRoot c1OldRoot
     rfl rfl rfl rfl rfl rfl⟩

/-- Claim C8: a `POST /api/sync` with an empty store and no local snapshot
returns HTTP 400 with `success: false` and error `No data provided`, and
writes nothing to the store. -/
theorem C8_no_data_client_error (now : Int) :
    handleSyncPost now none none =
      { status := 400, success := false, error := some "No data provided",
        data := none, store := none } := rfl

/-- Claim C9: the parsed deletion set is exactly the ids recovered from the
parseable records of both inputs — unparsable records contribute nothing —
and a sync of two present snapshots always succeeds (HTTP 200, no error),
whatever the tombstone records contain. -/
theorem C9_malformed_tombstones :
    (∀ (cloudData localData : MindmapData) (K : String),
      K ∈ mergedDeletedIds cloudData localData ↔
        ∃ tr, (tr ∈ cloudData.deletedNodes.getD [] ∨
               tr ∈ localData.deletedNodes.getD []) ∧
          parseId tr = some K) ∧
    (∀ (now : Int) (cloudData localData : MindmapData),
      (handleSyncPost now (some cloudData) (some localData)).status = 200 ∧
      (handleSyncPost now (some cloudData) (some localData)).success = true ∧
      (handleSyncPost now (some cloudData) (some localData)).error = none) := by
  constructor
  · intro cloudData localData K
    exact mem_mergedDeletedIds
  · intro now cloudData localData
    exact ⟨rfl, rfl, rfl⟩

/-- Claim C10: the merged snapshot's timestamp is the reconciliation time
`now`, regardless of both inputs (in particular it is not copied from
either input's timestamp). -/
theorem C10_fresh_timestamp (now : Int) (cloudData localData : MindmapData) :
    (mergeMindmapData now cloudData localData).timestamp = now := rfl
